import Mathlib

/-!
Verification of the chess AI engine (`src/lib/engine.ts`).

The engine is embedded shallowly: the mutable `Chess` game object from the
external rules library is modelled as an abstract `Rules` interface together
with a `GameObj` carrying the current position and the make/unmake history
stack; the global `Math.random()` source is modelled as an explicit stream
`r : ℕ → ℚ` together with a call counter that every definition threads
through, so that each random draw is `r k` for the k-th call.
-/

namespace ChessAI

/-- Piece color, `'w'`/`'b'` in the source. -/
inductive Color
  | white
  | black
deriving DecidableEq

/-- Piece type, the keys `p n b r q k` of `PIECE_VALUES` in the source. -/
inductive PType
  | p
  | n
  | b
  | r
  | q
  | k
deriving DecidableEq

/-- A piece as returned by `game.board()`: a (type, color) pair. -/
structure Piece where
  ptype : PType
  color : Color
deriving DecidableEq

/-- `PIECE_VALUES` from `engine.ts`: `{ p: 10, n: 30, b: 30, r: 50, q: 90, k: 900 }`. -/
def PIECE_VALUES : PType → ℚ
  | .p => 10
  | .n => 30
  | .b => 30
  | .r => 50
  | .q => 90
  | .k => 900

/-- `PAWN_TABLE` from `engine.ts`. -/
def PAWN_TABLE : List (List ℚ) :=
  [[0, 0, 0, 0, 0, 0, 0, 0],
   [5, 5, 5, -5, -5, 5, 5, 5],
   [1, 1, 2, 3, 3, 2, 1, 1],
   [1/2, 1/2, 1, 5/2, 5/2, 1, 1/2, 1/2],
   [0, 0, 0, 2, 2, 0, 0, 0],
   [1/2, -1/2, -1, 0, 0, -1, -1/2, 1/2],
   [1/2, 1, 1, -2, -2, 1, 1, 1/2],
   [0, 0, 0, 0, 0, 0, 0, 0]]

/-- `KNIGHT_TABLE` from `engine.ts`. -/
def KNIGHT_TABLE : List (List ℚ) :=
  [[-5, -4, -3, -3, -3, -3, -4, -5],
   [-4, -2, 0, 0, 0, 0, -2, -4],
   [-3, 0, 1, 3/2, 3/2, 1, 0, -3],
   [-3, 1/2, 3/2, 2, 2, 3/2, 1/2, -3],
   [-3, 0, 3/2, 2, 2, 3/2, 0, -3],
   [-3, 1/2, 1, 3/2, 3/2, 1, 1/2, -3],
   [-4, -2, 0, 1/2, 1/2, 0, -2, -4],
   [-5, -4, -3, -3, -3, -3, -4, -5]]

/-- Index a position table as `TABLE[i][j]` does in the source. -/
def tableAt (t : List (List ℚ)) (i j : ℕ) : ℚ :=
  (t.getD i []).getD j 0

/-- The 8×8 board snapshot returned by `game.board()`. -/
def Board : Type := Fin 8 → Fin 8 → Option Piece

/-- The squares in the row-major order of the two nested `for` loops of
`evaluateBoard`. -/
def squares : List (Fin 8 × Fin 8) :=
  (List.finRange 8).flatMap (fun i => (List.finRange 8).map (fun j => (i, j)))

/-- The `positionBonus` computed in `evaluateBoard`: the pawn/knight tables
indexed as `TABLE[i][j]` for white and `TABLE[7-i][j]` for black, `0` for
the other piece types. -/
def positionBonus (pc : Piece) (i j : Fin 8) : ℚ :=
  match pc.ptype with
  | .p => if pc.color = .white then tableAt PAWN_TABLE i.val j.val
          else tableAt PAWN_TABLE (7 - i.val) j.val
  | .n => if pc.color = .white then tableAt KNIGHT_TABLE i.val j.val
          else tableAt KNIGHT_TABLE (7 - i.val) j.val
  | _ => 0

/-- The signed contribution of one piece in `evaluateBoard`:
`value + positionBonus + jitter`, added for white and subtracted for black. -/
def pieceScore (pc : Piece) (i j : Fin 8) (jit : ℚ) : ℚ :=
  if pc.color = .white then PIECE_VALUES pc.ptype + positionBonus pc i j + jit
  else -(PIECE_VALUES pc.ptype + positionBonus pc i j + jit)

/-- `evaluateBoard` from `engine.ts`, with the `Math.random()` source made
explicit: `r` is the stream of random draws and `k` the index of the next
draw; the call `Math.random() * 0.1` at the occupied square visited as the
m-th occupied square is `r (k + m) * (1/10)`.  Returns the total evaluation
together with the next unused random index. -/
def evaluateBoard (bd : Board) (r : ℕ → ℚ) (k : ℕ) : ℚ × ℕ :=
  squares.foldl
    (fun acc ij =>
      match bd ij.1 ij.2 with
      | none => acc
      | some pc => (acc.1 + pieceScore pc ij.1 ij.2 (r acc.2 * (1/10)), acc.2 + 1))
    (0, k)

/-- The interface of the external rules library (`chess.js`) as the engine
consumes it: legal-move list, move application, game-over test, side to move
and the board snapshot. -/
structure Rules (Pos : Type) where
  legal : Pos → List String
  next : Pos → String → Pos
  over : Pos → Bool
  whiteTurn : Pos → Bool
  boardOf : Pos → Board

/-- The mutable `Chess` object: current position plus the undo history that
`game.move` pushes onto and `game.undo` pops. -/
structure GameObj (Pos : Type) where
  cur : Pos
  hist : List Pos
deriving DecidableEq

variable {Pos : Type}

/-- `game.move(m)`: advance the current position, pushing the old one. -/
def gmove (R : Rules Pos) (g : GameObj Pos) (m : String) : GameObj Pos :=
  ⟨R.next g.cur m, g.cur :: g.hist⟩

/-- `game.undo()`: restore the previous position from the history stack. -/
def gundo (g : GameObj Pos) : GameObj Pos :=
  match g.hist with
  | [] => g
  | p :: h => ⟨p, h⟩

/-- The maximizing loop of `minimax`: iterate the moves, recursing via
`step`, tracking `bestEval` and `alpha`, and `break` once `beta <= alpha`.
Returns `(bestEval, nextRandomIndex, gameObj)`. -/
def maxLoop (R : Rules Pos)
    (step : GameObj Pos → ℚ → ℚ → ℕ → ℚ × ℕ × GameObj Pos) :
    List String → GameObj Pos → ℚ → ℚ → ℚ → ℕ → ℚ × ℕ × GameObj Pos
  | [], g, bestEval, _, _, k => (bestEval, k, g)
  | m :: ms, g, bestEval, a, b, k =>
    let g1 := gmove R g m
    let res := step g1 a b k
    let g3 := gundo res.2.2
    let best1 := max bestEval res.1
    let a1 := max a res.1
    if b ≤ a1 then (best1, res.2.1, g3)
    else maxLoop R step ms g3 best1 a1 b res.2.1

/-- The minimizing loop of `minimax`, symmetric to `maxLoop` with `min` and
the `beta` bound. -/
def minLoop (R : Rules Pos)
    (step : GameObj Pos → ℚ → ℚ → ℕ → ℚ × ℕ × GameObj Pos) :
    List String → GameObj Pos → ℚ → ℚ → ℚ → ℕ → ℚ × ℕ × GameObj Pos
  | [], g, bestEval, _, _, k => (bestEval, k, g)
  | m :: ms, g, bestEval, a, b, k =>
    let g1 := gmove R g m
    let res := step g1 a b k
    let g3 := gundo res.2.2
    let best1 := min bestEval res.1
    let b1 := min b res.1
    if b1 ≤ a then (best1, res.2.1, g3)
    else minLoop R step ms g3 best1 a b1 res.2.1

/-- `minimax` from `engine.ts`: at `depth == 0` or `game.isGameOver()` it
returns `-evaluateBoard(game)`; otherwise it runs the alpha-beta loop over
`game.moves()`, maximizing or minimizing.  The random stream index and the
game object are threaded through and returned. -/
def minimax (R : Rules Pos) (r : ℕ → ℚ) :
    ℕ → GameObj Pos → ℚ → ℚ → Bool → ℕ → ℚ × ℕ × GameObj Pos
  | 0, g, _, _, _, k =>
    let e := evaluateBoard (R.boardOf g.cur) r k
    (-e.1, e.2, g)
  | d + 1, g, a, b, isMax, k =>
    if R.over g.cur then
      let e := evaluateBoard (R.boardOf g.cur) r k
      (-e.1, e.2, g)
    else if isMax then
      maxLoop R (fun g1 a1 b1 k1 => minimax R r d g1 a1 b1 false k1)
        (R.legal g.cur) g (-9999) a b k
    else
      minLoop R (fun g1 a1 b1 k1 => minimax R r d g1 a1 b1 true k1)
        (R.legal g.cur) g 9999 a b k

/-- The difficulty-to-depth assignment in `getBestMove`: `depth` starts at 1
and the three `if` statements override it for Easy/Hard/Master. -/
def depthFor (difficulty : String) : ℕ :=
  if difficulty = "Easy" then 1
  else if difficulty = "Hard" then 2
  else if difficulty = "Master" then 3
  else 1

/-- JavaScript `bestMove || possibleMoves[0]`: `null` and the empty string
are falsy, any other string is returned as is. -/
def jsOrElse (o : Option String) (d : String) : String :=
  match o with
  | none => d
  | some s => if s = "" then d else s

/-- JavaScript array indexing `xs[i]` with a possibly out-of-range integer
index: in range gives the element, out of range gives `undefined`. -/
def jsIndex (xs : List String) (i : ℤ) : Option String :=
  if i < 0 then none else xs.get? i.toNat

/-- The root loop of `getBestMove`: for each root move, make it, call
`minimax(depth-1, -100000, 100000, !isMaximizing)`, undo, and keep the move
with the strictly best score from the root side's perspective. -/
def rootLoop (R : Rules Pos) (r : ℕ → ℚ) (depth : ℕ) :
    List String → GameObj Pos → Option String → ℚ → Bool → ℕ →
      Option String × ℚ × ℕ × GameObj Pos
  | [], g, bm, bv, _, k => (bm, bv, k, g)
  | m :: ms, g, bm, bv, isMax, k =>
    let g1 := gmove R g m
    let res := minimax R r (depth - 1) g1 (-100000) 100000 (!isMax) k
    let g3 := gundo res.2.2
    if isMax then
      if bv < res.1 then rootLoop R r depth ms g3 (some m) res.1 isMax res.2.1
      else rootLoop R r depth ms g3 bm bv isMax res.2.1
    else
      if res.1 < bv then rootLoop R r depth ms g3 (some m) res.1 isMax res.2.1
      else rootLoop R r depth ms g3 bm bv isMax res.2.1

/-- The list of root scores `boardValue` computed by `rootLoop` in
enumeration order, with the random index threaded exactly as in the loop
(each iteration restores the game object, so the same `g` is reused). -/
def rootVals (R : Rules Pos) (r : ℕ → ℚ) (depth : ℕ) (isMax : Bool)
    (g : GameObj Pos) : List String → ℕ → List ℚ
  | [], _ => []
  | m :: ms, k =>
    let res := minimax R r (depth - 1) (gmove R g m) (-100000) 100000 (!isMax) k
    res.1 :: rootVals R r depth isMax g ms res.2.1

/-- `getBestMove` from `engine.ts`: `null` on an empty move list, a single
random pick for Beginner, otherwise the alpha-beta root search with
`isMaximizing` derived from `game.turn() === 'w'` and the
`bestMove || possibleMoves[0]` fallback. -/
def getBestMove (R : Rules Pos) (g : GameObj Pos) (difficulty : String)
    (r : ℕ → ℚ) (k : ℕ) : Option String × ℕ × GameObj Pos :=
  let possibleMoves := R.legal g.cur
  if possibleMoves.length = 0 then (none, k, g)
  else if difficulty = "Beginner" then
    (jsIndex possibleMoves ⌊r k * (possibleMoves.length : ℚ)⌋, k + 1, g)
  else
    let depth := depthFor difficulty
    let isMaximizing := R.whiteTurn g.cur
    let bestValue : ℚ := if isMaximizing then -99999 else 99999
    let res := rootLoop R r depth possibleMoves g none bestValue isMaximizing k
    (some (jsOrElse res.1 possibleMoves.headI), res.2.2.1, res.2.2.2)

/-- The loop of full minimax with no pruning: iterate all moves, no bounds,
no break. -/
def fullLoop (R : Rules Pos) (cmb : ℚ → ℚ → ℚ)
    (step : GameObj Pos → ℕ → ℚ × ℕ × GameObj Pos) :
    List String → GameObj Pos → ℚ → ℕ → ℚ × ℕ × GameObj Pos
  | [], g, bestEval, k => (bestEval, k, g)
  | m :: ms, g, bestEval, k =>
    let g1 := gmove R g m
    let res := step g1 k
    let g3 := gundo res.2.2
    fullLoop R cmb step ms g3 (cmb bestEval res.1) res.2.1

/-- Modelled from the spec: the "full minimax (no pruning)" reference
algorithm of the pruning-equivalence property, absent from the source.  It
is `minimax` with the alpha-beta bounds and the break removed, over the
same jittered evaluator with the same threading of random draws. -/
def minimaxFull (R : Rules Pos) (r : ℕ → ℚ) :
    ℕ → GameObj Pos → Bool → ℕ → ℚ × ℕ × GameObj Pos
  | 0, g, _, k =>
    let e := evaluateBoard (R.boardOf g.cur) r k
    (-e.1, e.2, g)
  | d + 1, g, isMax, k =>
    if R.over g.cur then
      let e := evaluateBoard (R.boardOf g.cur) r k
      (-e.1, e.2, g)
    else if isMax then
      fullLoop R max (fun g1 k1 => minimaxFull R r d g1 false k1)
        (R.legal g.cur) g (-9999) k
    else
      fullLoop R min (fun g1 k1 => minimaxFull R r d g1 true k1)
        (R.legal g.cur) g 9999 k

/-- The evaluation of a position when every `Math.random()` draw returns the
constant `c` (a deterministic evaluator). -/
def constEval (R : Rules Pos) (c : ℚ) (p : Pos) : ℚ :=
  (evaluateBoard (R.boardOf p) (fun _ => c) 0).1

/-- The pure game value of a node under the constant-jitter evaluator: the
mathematical minimax value that both search variants are measured against. -/
def specValue (R : Rules Pos) (c : ℚ) : ℕ → Pos → Bool → ℚ
  | 0, p, _ => -constEval R c p
  | d + 1, p, isMax =>
    if R.over p then -constEval R c p
    else if isMax then
      (R.legal p).foldl (fun acc m => max acc (specValue R c d (R.next p m) false)) (-9999)
    else
      (R.legal p).foldl (fun acc m => min acc (specValue R c d (R.next p m) true)) 9999

/-- Fail-soft alpha-beta soundness of a returned score `w` against the true
value `v` in the window `(a, b)`: below the window it is an upper bound on
`v`, above it a lower bound, and inside it is exact. -/
def abSound (a b w v : ℚ) : Prop :=
  (w ≤ a → v ≤ w) ∧ (b ≤ w → w ≤ v) ∧ (a < w → w < b → w = v)

/-- The all-zero `Math.random()` stream. -/
def rzero : ℕ → ℚ := fun _ => 0

/-- The all-one-half `Math.random()` stream. -/
def rhalf : ℕ → ℚ := fun _ => 1/2

/-- The `Math.random()` stream whose second draw is `0.9` and all others `0`. -/
def rjit : ℕ → ℚ := fun i => if i = 1 then 9/10 else 0

/-- The empty board snapshot. -/
def emptyBoard : Board := fun _ _ => none

/-- A board holding a single piece. -/
def singleBoard (iw jw : Fin 8) (pc : Piece) : Board :=
  fun i j => if i = iw ∧ j = jw then some pc else none

/-- A board with one white queen on square (0,0). -/
def boardWQ : Board := singleBoard 0 0 ⟨.q, .white⟩

/-- A board with one white pawn on square (0,0). -/
def boardWP : Board := singleBoard 0 0 ⟨.p, .white⟩

/-- A board with one black pawn on square (0,0). -/
def boardBP : Board := singleBoard 0 0 ⟨.p, .black⟩

/-- A rules instance describing a checkmated position: the side to move has
no legal moves, the game is over, and white is a queen up. -/
def mateR : Rules ℕ where
  legal := fun _ => []
  next := fun p _ => p
  over := fun _ => true
  whiteTurn := fun _ => true
  boardOf := fun _ => boardWQ

/-- A rules instance whose current board holds a single white pawn; used to
evaluate `minimax` at depth 0. -/
def pawnR : Rules ℕ where
  legal := fun _ => []
  next := fun p _ => p
  over := fun _ => false
  whiteTurn := fun _ => true
  boardOf := fun _ => boardWP

/-- A small two-move game: position 0 (white to move) has moves `"a"` and
`"b"` leading to terminal positions 1 (white a pawn up) and 2 (equal). -/
def twoR : Rules ℕ where
  legal := fun p => if p = 0 then ["a", "b"] else []
  next := fun p m => if p = 0 then (if m = "a" then 1 else if m = "b" then 2 else 0) else p
  over := fun p => !(p = 0 : Bool)
  whiteTurn := fun _ => true
  boardOf := fun p => if p = 1 then boardWP else emptyBoard

/-- Positions of the depth-2 game tree used to compare pruned and unpruned
search: a root with three children `na`, `nb`, `nc`, whose leaves carry the
boards `leafBoard` assigns. -/
inductive TPos
  | root
  | na
  | nb
  | nc
  | la1
  | la2
  | lb1
  | lb2
  | lc1
deriving DecidableEq

/-- Leaf boards of the game tree: the `nb` leaves hold a white pawn, the
`nc` leaf a black pawn, everything else is empty. -/
def leafBoard : TPos → Board
  | .lb1 => boardWP
  | .lb2 => boardWP
  | .lc1 => boardBP
  | _ => emptyBoard

/-- The move lists of the game tree. -/
def treeLegal : TPos → List String
  | .root => ["a", "b", "c"]
  | .na => ["x", "y"]
  | .nb => ["x", "y"]
  | .nc => ["x"]
  | _ => []

/-- The transition function of the game tree. -/
def treeNext : TPos → String → TPos
  | .root, "a" => .na
  | .root, "b" => .nb
  | .root, "c" => .nc
  | .na, "x" => .la1
  | .na, "y" => .la2
  | .nb, "x" => .lb1
  | .nb, "y" => .lb2
  | .nc, "x" => .lc1
  | p, _ => p

/-- The rules instance of the depth-2 game tree. -/
def treeR : Rules TPos where
  legal := treeLegal
  next := treeNext
  over := fun _ => false
  whiteTurn := fun _ => true
  boardOf := leafBoard

/-! ### Restoration of the game object

Every `game.move` in the engine is paired with a `game.undo`, so each search
function returns the game object it was given. -/

theorem gundo_gmove (R : Rules Pos) (g : GameObj Pos) (m : String) :
    gundo (gmove R g m) = g := rfl

theorem maxLoop_gameObj (R : Rules Pos)
    (step : GameObj Pos → ℚ → ℚ → ℕ → ℚ × ℕ × GameObj Pos)
    (hstep : ∀ g1 a1 b1 k1, (step g1 a1 b1 k1).2.2 = g1) :
    ∀ (ms : List String) (g : GameObj Pos) (best a b : ℚ) (k : ℕ),
      (maxLoop R step ms g best a b k).2.2 = g := by
  intro ms
  induction ms with
  | nil => intro g best a b k; rfl
  | cons m ms ih =>
    intro g best a b k
    simp only [maxLoop, hstep, gundo_gmove]
    split
    · rfl
    · exact ih g (max best (step (gmove R g m) a b k).1)
        (max a (step (gmove R g m) a b k).1) b (step (gmove R g m) a b k).2.1

theorem minLoop_gameObj (R : Rules Pos)
    (step : GameObj Pos → ℚ → ℚ → ℕ → ℚ × ℕ × GameObj Pos)
    (hstep : ∀ g1 a1 b1 k1, (step g1 a1 b1 k1).2.2 = g1) :
    ∀ (ms : List String) (g : GameObj Pos) (best a b : ℚ) (k : ℕ),
      (minLoop R step ms g best a b k).2.2 = g := by
  intro ms
  induction ms with
  | nil => intro g best a b k; rfl
  | cons m ms ih =>
    intro g best a b k
    simp only [minLoop, hstep, gundo_gmove]
    split
    · rfl
    · exact ih g (min best (step (gmove R g m) a b k).1) a
        (min b (step (gmove R g m) a b k).1) (step (gmove R g m) a b k).2.1

theorem minimax_gameObj (R : Rules Pos) (r : ℕ → ℚ) :
    ∀ (d : ℕ) (g : GameObj Pos) (a b : ℚ) (isMax : Bool) (k : ℕ),
      (minimax R r d g a b isMax k).2.2 = g := by
  intro d
  induction d with
  | zero => intro g a b isMax k; rfl
  | succ d ih =>
    intro g a b isMax k
    simp only [minimax]
    split
    · rfl
    · split
      · exact maxLoop_gameObj R _ (fun g1 a1 b1 k1 => ih g1 a1 b1 false k1) _ g _ a b k
      · exact minLoop_gameObj R _ (fun g1 a1 b1 k1 => ih g1 a1 b1 true k1) _ g _ a b k

theorem fullLoop_gameObj (R : Rules Pos) (cmb : ℚ → ℚ → ℚ)
    (step : GameObj Pos → ℕ → ℚ × ℕ × GameObj Pos)
    (hstep : ∀ g1 k1, (step g1 k1).2.2 = g1) :
    ∀ (ms : List String) (g : GameObj Pos) (best : ℚ) (k : ℕ),
      (fullLoop R cmb step ms g best k).2.2 = g := by
  intro ms
  induction ms with
  | nil => intro g best k; rfl
  | cons m ms ih =>
    intro g best k
    simp only [fullLoop, hstep, gundo_gmove]
    exact ih g (cmb best (step (gmove R g m) k).1) (step (gmove R g m) k).2.1

theorem minimaxFull_gameObj (R : Rules Pos) (r : ℕ → ℚ) :
    ∀ (d : ℕ) (g : GameObj Pos) (isMax : Bool) (k : ℕ),
      (minimaxFull R r d g isMax k).2.2 = g := by
  intro d
  induction d with
  | zero => intro g isMax k; rfl
  | succ d ih =>
    intro g isMax k
    simp only [minimaxFull]
    split
    · rfl
    · split
      · exact fullLoop_gameObj R max _ (fun g1 k1 => ih g1 false k1) _ g _ k
      · exact fullLoop_gameObj R min _ (fun g1 k1 => ih g1 true k1) _ g _ k

theorem rootLoop_gameObj (R : Rules Pos) (r : ℕ → ℚ) (depth : ℕ) :
    ∀ (ms : List String) (g : GameObj Pos) (bm : Option String) (bv : ℚ)
      (isMax : Bool) (k : ℕ),
      (rootLoop R r depth ms g bm bv isMax k).2.2.2 = g := by
  intro ms
  induction ms with
  | nil => intro g bm bv isMax k; rfl
  | cons m ms ih =>
    intro g bm bv isMax k
    simp only [rootLoop, minimax_gameObj, gundo_gmove]
    split
    · split
      · exact ih g _ _ isMax _
      · exact ih g _ _ isMax _
    · split
      · exact ih g _ _ isMax _
      · exact ih g _ _ isMax _

/-! ### Folded maxima and minima -/

section FoldLemmas

variable {α σ : Type} [LinearOrder α] (f : σ → α)

theorem le_foldlMax (l : List σ) (b : α) :
    b ≤ l.foldl (fun acc m => max acc (f m)) b := by
  induction l generalizing b with
  | nil => exact le_refl b
  | cons x l ih => exact le_trans (le_max_left b (f x)) (ih (max b (f x)))

theorem foldlMax_le {l : List σ} {b B : α} (hb : b ≤ B)
    (hl : ∀ x ∈ l, f x ≤ B) :
    l.foldl (fun acc m => max acc (f m)) b ≤ B := by
  induction l generalizing b with
  | nil => exact hb
  | cons x l ih =>
    exact ih (max_le hb (hl x (List.mem_cons_self x l)))
      (fun y hy => hl y (List.mem_cons_of_mem x hy))

theorem mem_le_foldlMax {l : List σ} {x : σ} (hx : x ∈ l) (b : α) :
    f x ≤ l.foldl (fun acc m => max acc (f m)) b := by
  induction l generalizing b with
  | nil => cases hx
  | cons y l ih =>
    rcases List.mem_cons.mp hx with h | h
    · subst h
      exact le_trans (le_max_right b (f x)) (le_foldlMax f l (max b (f x)))
    · exact ih h (max b (f y))

theorem foldlMax_mono {l : List σ} {b c : α} (h : b ≤ c) :
    l.foldl (fun acc m => max acc (f m)) b ≤ l.foldl (fun acc m => max acc (f m)) c := by
  induction l generalizing b c with
  | nil => exact h
  | cons x l ih => exact ih (max_le_max h (le_refl (f x)))

theorem foldlMax_pull (l : List σ) (b : α) (x : α) :
    l.foldl (fun acc m => max acc (f m)) (max b x) =
      max x (l.foldl (fun acc m => max acc (f m)) b) := by
  induction l generalizing b with
  | nil => exact max_comm b x
  | cons y l ih =>
    show l.foldl (fun acc m => max acc (f m)) (max (max b x) (f y)) =
      max x (l.foldl (fun acc m => max acc (f m)) (max b (f y)))
    rw [max_assoc b x (f y), max_comm x (f y), ← max_assoc b (f y) x, ih]

theorem foldlMin_ge (l : List σ) (b : α) :
    l.foldl (fun acc m => min acc (f m)) b ≤ b := by
  induction l generalizing b with
  | nil => exact le_refl b
  | cons x l ih => exact le_trans (ih (min b (f x))) (min_le_left b (f x))

theorem le_foldlMin {l : List σ} {b B : α} (hb : B ≤ b)
    (hl : ∀ x ∈ l, B ≤ f x) :
    B ≤ l.foldl (fun acc m => min acc (f m)) b := by
  induction l generalizing b with
  | nil => exact hb
  | cons x l ih =>
    exact ih (le_min hb (hl x (List.mem_cons_self x l)))
      (fun y hy => hl y (List.mem_cons_of_mem x hy))

theorem foldlMin_le_mem {l : List σ} {x : σ} (hx : x ∈ l) (b : α) :
    l.foldl (fun acc m => min acc (f m)) b ≤ f x := by
  induction l generalizing b with
  | nil => cases hx
  | cons y l ih =>
    rcases List.mem_cons.mp hx with h | h
    · subst h
      exact le_trans (foldlMin_ge f l (min b (f x))) (min_le_right b (f x))
    · exact ih h (min b (f y))

theorem foldlMin_mono {l : List σ} {b c : α} (h : b ≤ c) :
    l.foldl (fun acc m => min acc (f m)) b ≤ l.foldl (fun acc m => min acc (f m)) c := by
  induction l generalizing b c with
  | nil => exact h
  | cons x l ih => exact ih (min_le_min h (le_refl (f x)))

theorem foldlMin_pull (l : List σ) (b : α) (x : α) :
    l.foldl (fun acc m => min acc (f m)) (min b x) =
      min x (l.foldl (fun acc m => min acc (f m)) b) := by
  induction l generalizing b with
  | nil => exact min_comm b x
  | cons y l ih =>
    show l.foldl (fun acc m => min acc (f m)) (min (min b x) (f y)) =
      min x (l.foldl (fun acc m => min acc (f m)) (min b (f y)))
    rw [min_assoc b x (f y), min_comm x (f y), ← min_assoc b (f y) x, ih]

end FoldLemmas

/-! ### The evaluator under a constant random stream, and its bounds -/

theorem evalFold_k_irrel (bd : Board) (c : ℚ) :
    ∀ (l : List (Fin 8 × Fin 8)) (a : ℚ) (k j : ℕ),
      (l.foldl
        (fun acc ij =>
          match bd ij.1 ij.2 with
          | none => acc
          | some pc => (acc.1 + pieceScore pc ij.1 ij.2 ((fun _ => c) acc.2 * (1/10)), acc.2 + 1))
        (a, k)).1 =
      (l.foldl
        (fun acc ij =>
          match bd ij.1 ij.2 with
          | none => acc
          | some pc => (acc.1 + pieceScore pc ij.1 ij.2 ((fun _ => c) acc.2 * (1/10)), acc.2 + 1))
        (a, j)).1 := by
  intro l
  induction l with
  | nil => intro a k j; rfl
  | cons ij l ih =>
    intro a k j
    simp only [List.foldl_cons]
    cases h : bd ij.1 ij.2 with
    | none => simp only [h]; exact ih a k j
    | some pc => simp only [h]; exact ih (a + pieceScore pc ij.1 ij.2 (c * (1/10))) (k + 1) (j + 1)

theorem evaluateBoard_const (bd : Board) (c : ℚ) (k : ℕ) :
    (evaluateBoard bd (fun _ => c) k).1 = (evaluateBoard bd (fun _ => c) 0).1 :=
  evalFold_k_irrel bd c squares 0 k 0

theorem PIECE_VALUES_bound (pt : PType) :
    0 ≤ PIECE_VALUES pt ∧ PIECE_VALUES pt ≤ 900 := by
  cases pt <;> exact ⟨by norm_num [PIECE_VALUES], by norm_num [PIECE_VALUES]⟩

theorem tableAt_bound {t : List (List ℚ)}
    (h : ∀ row ∈ t, ∀ x ∈ row, -5 ≤ x ∧ x ≤ 5) (i j : ℕ) :
    |tableAt t i j| ≤ 5 := by
  have h1 : tableAt t i j = ((t.get? i).getD []).getD j 0 := rfl
  rw [h1]
  rcases hrow : t.get? i with _ | row
  · simp [List.getD]
  · have hmem : row ∈ t := List.get?_mem hrow
    have h2 : (row : List ℚ).getD j 0 = (row.get? j).getD 0 := rfl
    simp only [Option.getD_some, h2]
    rcases hx : row.get? j with _ | x
    · simp
    · simp only [Option.getD_some]
      have := h row hmem x (List.get?_mem hx)
      exact abs_le.mpr this

theorem PAWN_TABLE_entries : ∀ row ∈ PAWN_TABLE, ∀ x ∈ row, -5 ≤ x ∧ x ≤ 5 := by
  intro row hrow x hx
  simp only [PAWN_TABLE, List.mem_cons, List.not_mem_nil, or_false] at hrow
  rcases hrow with h | h | h | h | h | h | h | h <;> subst h <;>
    simp only [List.mem_cons, List.not_mem_nil, or_false] at hx <;>
    rcases hx with h | h | h | h | h | h | h | h <;> subst h <;>
    constructor <;> norm_num

theorem KNIGHT_TABLE_entries : ∀ row ∈ KNIGHT_TABLE, ∀ x ∈ row, -5 ≤ x ∧ x ≤ 5 := by
  intro row hrow x hx
  simp only [KNIGHT_TABLE, List.mem_cons, List.not_mem_nil, or_false] at hrow
  rcases hrow with h | h | h | h | h | h | h | h <;> subst h <;>
    simp only [List.mem_cons, List.not_mem_nil, or_false] at hx <;>
    rcases hx with h | h | h | h | h | h | h | h <;> subst h <;>
    constructor <;> norm_num

theorem positionBonus_bound (pc : Piece) (i j : Fin 8) :
    |positionBonus pc i j| ≤ 5 := by
  obtain ⟨pt, col⟩ := pc
  cases pt <;> simp only [positionBonus]
  · split <;> exact tableAt_bound PAWN_TABLE_entries _ _
  · split <;> exact tableAt_bound KNIGHT_TABLE_entries _ _
  all_goals norm_num

theorem pieceScore_bound (pc : Piece) (i j : Fin 8) {jit : ℚ}
    (hj0 : 0 ≤ jit) (hj1 : jit ≤ 1/10) :
    |pieceScore pc i j jit| ≤ 9051/10 := by
  have hv := PIECE_VALUES_bound pc.ptype
  have hbonus := positionBonus_bound pc i j
  have hsum : |PIECE_VALUES pc.ptype + positionBonus pc i j + jit| ≤ 9051/10 := by
    have h1 : |PIECE_VALUES pc.ptype + positionBonus pc i j + jit|
        ≤ |PIECE_VALUES pc.ptype| + |positionBonus pc i j| + |jit| := abs_add_three _ _ _
    have h2 : |PIECE_VALUES pc.ptype| ≤ 900 := by
      rw [abs_of_nonneg hv.1]; exact hv.2
    have h3 : |jit| ≤ 1/10 := by rw [abs_of_nonneg hj0]; exact hj1
    linarith
  unfold pieceScore
  split
  · exact hsum
  · rw [abs_neg]; exact hsum

theorem evalFold_bound (bd : Board) (r : ℕ → ℚ)
    (hr : ∀ i, 0 ≤ r i ∧ r i < 1) :
    ∀ (l : List (Fin 8 × Fin 8)) (a : ℚ) (k : ℕ),
      |(l.foldl
        (fun acc ij =>
          match bd ij.1 ij.2 with
          | none => acc
          | some pc => (acc.1 + pieceScore pc ij.1 ij.2 (r acc.2 * (1/10)), acc.2 + 1))
        (a, k)).1| ≤ |a| + l.length * (9051/10) := by
  intro l
  induction l with
  | nil => intro a k; simp
  | cons ij l ih =>
    intro a k
    simp only [List.foldl_cons, List.length_cons]
    cases h : bd ij.1 ij.2 with
    | none =>
      simp only [h]
      have h1 := ih a k
      have h2 : (l.length : ℚ) * (9051/10) ≤ ((l.length : ℚ) + 1) * (9051/10) := by
        nlinarith [Nat.cast_nonneg (α := ℚ) l.length]
      push_cast
      push_cast at h1
      linarith
    | some pc =>
      simp only [h]
      have hjit0 : 0 ≤ r k * (1/10) := by
        have := (hr k).1; positivity
      have hjit1 : r k * (1/10) ≤ 1/10 := by
        have := (hr k).2; nlinarith
      have hps := pieceScore_bound pc ij.1 ij.2 hjit0 hjit1
      have habs : |a + pieceScore pc ij.1 ij.2 (r k * (1/10))| ≤ |a| + 9051/10 := by
        have h3 := abs_add a (pieceScore pc ij.1 ij.2 (r k * (1/10)))
        linarith
      have h1 := ih (a + pieceScore pc ij.1 ij.2 (r k * (1/10))) (k + 1)
      push_cast
      push_cast at h1
      linarith

theorem squares_length : squares.length = 64 := by decide

theorem evaluateBoard_bound (bd : Board) (r : ℕ → ℚ)
    (hr : ∀ i, 0 ≤ r i ∧ r i < 1) (k : ℕ) :
    |(evaluateBoard bd r k).1| ≤ 57927 := by
  have h := evalFold_bound bd r hr squares 0 k
  rw [squares_length] at h
  simp only [abs_zero, zero_add] at h
  calc |(evaluateBoard bd r k).1| ≤ 64 * (9051/10) := h
    _ ≤ 57927 := by norm_num

/-! ### Score bounds: every search value lies well inside the root window -/

theorem maxLoop_abs (R : Rules Pos)
    (step : GameObj Pos → ℚ → ℚ → ℕ → ℚ × ℕ × GameObj Pos) {B : ℚ}
    (hstep : ∀ g1 a1 b1 k1, |(step g1 a1 b1 k1).1| ≤ B) :
    ∀ (ms : List String) (g : GameObj Pos) (best a b : ℚ) (k : ℕ),
      |best| ≤ B → |(maxLoop R step ms g best a b k).1| ≤ B := by
  intro ms
  induction ms with
  | nil => intro g best a b k hbest; exact hbest
  | cons m ms ih =>
    intro g best a b k hbest
    simp only [maxLoop]
    have hv := hstep (gmove R g m) a b k
    have hmax : |max best (step (gmove R g m) a b k).1| ≤ B := by
      rcases abs_le.mp hv with ⟨hv1, hv2⟩
      rcases abs_le.mp hbest with ⟨hb1, hb2⟩
      exact abs_le.mpr ⟨le_trans hb1 (le_max_left _ _), max_le hb2 hv2⟩
    split
    · exact hmax
    · exact ih _ _ _ _ _ hmax

theorem minLoop_abs (R : Rules Pos)
    (step : GameObj Pos → ℚ → ℚ → ℕ → ℚ × ℕ × GameObj Pos) {B : ℚ}
    (hstep : ∀ g1 a1 b1 k1, |(step g1 a1 b1 k1).1| ≤ B) :
    ∀ (ms : List String) (g : GameObj Pos) (best a b : ℚ) (k : ℕ),
      |best| ≤ B → |(minLoop R step ms g best a b k).1| ≤ B := by
  intro ms
  induction ms with
  | nil => intro g best a b k hbest; exact hbest
  | cons m ms ih =>
    intro g best a b k hbest
    simp only [minLoop]
    have hv := hstep (gmove R g m) a b k
    have hmin : |min best (step (gmove R g m) a b k).1| ≤ B := by
      rcases abs_le.mp hv with ⟨hv1, hv2⟩
      rcases abs_le.mp hbest with ⟨hb1, hb2⟩
      exact abs_le.mpr ⟨le_min hb1 hv1, le_trans (min_le_left _ _) hb2⟩
    split
    · exact hmin
    · exact ih _ _ _ _ _ hmin

theorem minimax_abs (R : Rules Pos) (r : ℕ → ℚ)
    (hr : ∀ i, 0 ≤ r i ∧ r i < 1) :
    ∀ (d : ℕ) (g : GameObj Pos) (a b : ℚ) (isMax : Bool) (k : ℕ),
      |(minimax R r d g a b isMax k).1| ≤ 57927 := by
  intro d
  induction d with
  | zero =>
    intro g a b isMax k
    show |-(evaluateBoard (R.boardOf g.cur) r k).1| ≤ 57927
    rw [abs_neg]
    exact evaluateBoard_bound (R.boardOf g.cur) r hr k
  | succ d ih =>
    intro g a b isMax k
    simp only [minimax]
    split
    · rw [abs_neg]
      exact evaluateBoard_bound (R.boardOf g.cur) r hr k
    · split
      · exact maxLoop_abs R _ (fun g1 a1 b1 k1 => ih g1 a1 b1 false k1)
          (R.legal g.cur) g _ a b k (by norm_num)
      · exact minLoop_abs R _ (fun g1 a1 b1 k1 => ih g1 a1 b1 true k1)
          (R.legal g.cur) g _ a b k (by norm_num)

theorem constEval_abs (R : Rules Pos) {c : ℚ} (hc0 : 0 ≤ c) (hc1 : c < 1)
    (p : Pos) : |constEval R c p| ≤ 57927 :=
  evaluateBoard_bound (R.boardOf p) (fun _ => c) (fun _ => ⟨hc0, hc1⟩) 0

theorem specValue_abs (R : Rules Pos) {c : ℚ} (hc0 : 0 ≤ c) (hc1 : c < 1) :
    ∀ (d : ℕ) (p : Pos) (isMax : Bool), |specValue R c d p isMax| ≤ 57927 := by
  intro d
  induction d with
  | zero =>
    intro p isMax
    show |-constEval R c p| ≤ 57927
    rw [abs_neg]
    exact constEval_abs R hc0 hc1 p
  | succ d ih =>
    intro p isMax
    simp only [specValue]
    split
    · rw [abs_neg]; exact constEval_abs R hc0 hc1 p
    · split
      · refine abs_le.mpr ⟨?_, ?_⟩
        · refine le_trans (by norm_num) (le_foldlMax _ (R.legal p) (-9999))
        · exact foldlMax_le _ (by norm_num)
            (fun m _ => abs_le.mp (ih (R.next p m) false) |>.2)
      · refine abs_le.mpr ⟨?_, ?_⟩
        · exact le_foldlMin _ (by norm_num)
            (fun m _ => abs_le.mp (ih (R.next p m) true) |>.1)
        · refine le_trans (foldlMin_ge _ (R.legal p) 9999) (by norm_num)

/-! ### Value of full minimax under a constant stream -/

theorem gmove_cur (R : Rules Pos) (g : GameObj Pos) (m : String) :
    (gmove R g m).cur = R.next g.cur m := rfl

theorem fullLoop_val (R : Rules Pos) (cmb : ℚ → ℚ → ℚ)
    (step : GameObj Pos → ℕ → ℚ × ℕ × GameObj Pos) (val : Pos → ℚ)
    (hrest : ∀ g1 k1, (step g1 k1).2.2 = g1)
    (hstep : ∀ g1 k1, (step g1 k1).1 = val g1.cur) :
    ∀ (ms : List String) (g : GameObj Pos) (best : ℚ) (k : ℕ),
      (fullLoop R cmb step ms g best k).1 =
        ms.foldl (fun acc m => cmb acc (val (R.next g.cur m))) best := by
  intro ms
  induction ms with
  | nil => intro g best k; rfl
  | cons m ms ih =>
    intro g best k
    simp only [fullLoop, List.foldl_cons, hrest, gundo_gmove, hstep, gmove_cur]
    exact ih g (cmb best (val (R.next g.cur m))) (step (gmove R g m) k).2.1

theorem minimaxFull_val (R : Rules Pos) (c : ℚ) :
    ∀ (d : ℕ) (g : GameObj Pos) (isMax : Bool) (k : ℕ),
      (minimaxFull R (fun _ => c) d g isMax k).1 = specValue R c d g.cur isMax := by
  intro d
  induction d with
  | zero =>
    intro g isMax k
    simp only [minimaxFull, specValue, constEval]
    rw [evaluateBoard_const]
  | succ d ih =>
    intro g isMax k
    simp only [minimaxFull, specValue, constEval]
    split
    · rw [evaluateBoard_const]
    · split
      · exact fullLoop_val R max _ (fun p => specValue R c d p false)
          (fun g1 k1 => minimaxFull_gameObj R _ d g1 false k1)
          (fun g1 k1 => ih g1 false k1) (R.legal g.cur) g (-9999) k
      · exact fullLoop_val R min _ (fun p => specValue R c d p true)
          (fun g1 k1 => minimaxFull_gameObj R _ d g1 true k1)
          (fun g1 k1 => ih g1 true k1) (R.legal g.cur) g 9999 k

/-! ### The alpha-beta invariant -/

theorem abSound_self (a b w : ℚ) : abSound a b w w :=
  ⟨fun _ => le_refl w, fun _ => le_refl w, fun _ _ => rfl⟩

theorem maxLoop_ab (R : Rules Pos)
    (step : GameObj Pos → ℚ → ℚ → ℕ → ℚ × ℕ × GameObj Pos) (val : Pos → ℚ)
    (hrest : ∀ g1 a1 b1 k1, (step g1 a1 b1 k1).2.2 = g1)
    (hstep : ∀ g1 a1 b1 k1, a1 < b1 → abSound a1 b1 (step g1 a1 b1 k1).1 (val g1.cur))
    (b : ℚ) :
    ∀ (ms : List String) (g : GameObj Pos) (best a : ℚ) (k : ℕ), a < b →
      best ≤ (maxLoop R step ms g best a b k).1 ∧
      abSound a b (maxLoop R step ms g best a b k).1
        (ms.foldl (fun acc m => max acc (val (R.next g.cur m))) best) := by
  intro ms
  induction ms with
  | nil => intro g best a k hab; exact ⟨le_refl best, abSound_self a b best⟩
  | cons m ms ih =>
    intro g best a k hab
    have hsound : abSound a b (step (gmove R g m) a b k).1 (val (R.next g.cur m)) :=
      hstep (gmove R g m) a b k hab
    simp only [maxLoop, List.foldl_cons, hrest, gundo_gmove]
    set w := (step (gmove R g m) a b k).1 with hw
    set v := val (R.next g.cur m) with hv
    split
    · -- beta cutoff: b ≤ max a w
      rename_i hcut
      have hbw : b ≤ w := by
        rcases le_max_iff.mp hcut with h | h
        · exact absurd h (not_le.mpr hab)
        · exact h
      have hwv : w ≤ v := hsound.2.1 hbw
      refine ⟨le_max_left _ _, ?_, ?_, ?_⟩
      · intro h
        have h2 : b ≤ max best w := le_trans hbw (le_max_right best w)
        linarith
      · intro _
        calc max best w ≤ max best v := max_le_max (le_refl best) hwv
          _ ≤ ms.foldl (fun acc m1 => max acc (val (R.next g.cur m1))) (max best v) :=
              le_foldlMax _ ms (max best v)
      · intro _ h2
        have h3 : b ≤ max best w := le_trans hbw (le_max_right best w)
        exact absurd h2 (not_lt.mpr h3)
    · -- no cutoff: max a w < b
      rename_i hnc
      have ha1b : max a w < b := not_le.mp hnc
      obtain ⟨ih0, ih1, ih2, ih3⟩ :=
        ih g (max best w) (max a w) (step (gmove R g m) a b k).2.1 ha1b
      set W := (maxLoop R step ms g (max best w) (max a w) b
        (step (gmove R g m) a b k).2.1).1 with hWdef
      set T0 := ms.foldl (fun acc m1 => max acc (val (R.next g.cur m1))) best with hT0
      have hpw : ms.foldl (fun acc m1 => max acc (val (R.next g.cur m1))) (max best w) =
          max w T0 := foldlMax_pull _ ms best w
      have hpv : ms.foldl (fun acc m1 => max acc (val (R.next g.cur m1))) (max best v) =
          max v T0 := foldlMax_pull _ ms best v
      rcases le_or_lt w a with hwa | haw
      · -- child failed low: w ≤ a, window unchanged
        have hvw : v ≤ w := hsound.1 hwa
        have ha1 : max a w = a := max_eq_left hwa
        refine ⟨le_trans (le_max_left best w) ih0, ?_, ?_, ?_⟩
        · intro h
          have h2 := ih1 (h.trans_eq ha1.symm)
          rw [hpw] at h2
          rw [hpv]
          exact le_trans (max_le_max hvw (le_refl T0)) h2
        · intro h
          have h2 := ih2 h
          rw [hpw] at h2
          rw [hpv]
          have hwW : w < W := lt_of_le_of_lt hwa (lt_of_lt_of_le hab h)
          rcases max_choice w T0 with h3 | h3
          · rw [h3] at h2
            exact absurd h2 (not_le.mpr hwW)
          · rw [h3] at h2
            exact le_trans h2 (le_max_right v T0)
        · intro h1 h2
          have h3 := ih3 (ha1.trans_lt h1) h2
          rw [hpw] at h3
          rw [hpv]
          have hwW : w < W := lt_of_le_of_lt hwa h1
          rcases max_choice w T0 with h4 | h4
          · rw [h4] at h3
            exact absurd h3 (ne_of_gt hwW)
          · rw [h4] at h3
            have hvT0 : v ≤ T0 := by
              rw [← h3]
              exact le_of_lt (lt_of_le_of_lt (le_trans hvw hwa) h1)
            rw [max_eq_right hvT0]
            exact h3
      · -- child value inside the window: exact
        have ha1 : max a w = w := max_eq_right (le_of_lt haw)
        have hwb : w < b := ha1 ▸ ha1b
        have hveq : w = v := hsound.2.2 haw hwb
        have hTT : ms.foldl (fun acc m1 => max acc (val (R.next g.cur m1))) (max best v) =
            ms.foldl (fun acc m1 => max acc (val (R.next g.cur m1))) (max best w) := by
          rw [← hveq]
        refine ⟨le_trans (le_max_left best w) ih0, ?_, ?_, ?_⟩
        · intro h
          have h2 : w ≤ W := le_trans (le_max_right best w) ih0
          linarith
        · intro h
          rw [hTT]
          exact ih2 h
        · intro h1 h2
          rw [hTT]
          rcases lt_or_le (max a w) W with hlt | hle
          · exact ih3 hlt h2
          · have hle2 : W ≤ w := hle.trans_eq ha1
            have hWw : W = w := le_antisymm hle2 (le_trans (le_max_right best w) ih0)
            have hTW : ms.foldl (fun acc m1 => max acc (val (R.next g.cur m1))) (max best w) ≤ W :=
              ih1 (hWw.le.trans_eq ha1.symm)
            have hWT : W ≤ ms.foldl (fun acc m1 => max acc (val (R.next g.cur m1))) (max best w) :=
              le_trans (le_trans (le_of_eq hWw) (le_max_right best w))
                (le_foldlMax _ ms (max best w))
            exact le_antisymm hWT hTW

theorem minLoop_ab (R : Rules Pos)
    (step : GameObj Pos → ℚ → ℚ → ℕ → ℚ × ℕ × GameObj Pos) (val : Pos → ℚ)
    (hrest : ∀ g1 a1 b1 k1, (step g1 a1 b1 k1).2.2 = g1)
    (hstep : ∀ g1 a1 b1 k1, a1 < b1 → abSound a1 b1 (step g1 a1 b1 k1).1 (val g1.cur))
    (a : ℚ) :
    ∀ (ms : List String) (g : GameObj Pos) (best b : ℚ) (k : ℕ), a < b →
      (minLoop R step ms g best a b k).1 ≤ best ∧
      abSound a b (minLoop R step ms g best a b k).1
        (ms.foldl (fun acc m => min acc (val (R.next g.cur m))) best) := by
  intro ms
  induction ms with
  | nil => intro g best b k hab; exact ⟨le_refl best, abSound_self a b best⟩
  | cons m ms ih =>
    intro g best b k hab
    have hsound : abSound a b (step (gmove R g m) a b k).1 (val (R.next g.cur m)) :=
      hstep (gmove R g m) a b k hab
    simp only [minLoop, List.foldl_cons, hrest, gundo_gmove]
    set w := (step (gmove R g m) a b k).1 with hw
    set v := val (R.next g.cur m) with hv
    split
    · -- alpha cutoff: min b w ≤ a
      rename_i hcut
      have hwa : w ≤ a := by
        rcases min_le_iff.mp hcut with h | h
        · exact absurd h (not_le.mpr hab)
        · exact h
      have hvw : v ≤ w := hsound.1 hwa
      refine ⟨min_le_left _ _, ?_, ?_, ?_⟩
      · intro _
        calc ms.foldl (fun acc m1 => min acc (val (R.next g.cur m1))) (min best v)
            ≤ min best v := foldlMin_ge _ ms (min best v)
          _ ≤ min best w := min_le_min (le_refl best) hvw
      · intro h
        have h2 : min best w ≤ a := le_trans (min_le_right best w) hwa
        linarith
      · intro h1 _
        have h2 : min best w ≤ a := le_trans (min_le_right best w) hwa
        exact absurd h1 (not_lt.mpr h2)
    · -- no cutoff: a < min b w
      rename_i hnc
      have ha1b : a < min b w := not_le.mp hnc
      have haw : a < w := (lt_min_iff.mp ha1b).2
      obtain ⟨ih0, ih1, ih2, ih3⟩ :=
        ih g (min best w) (min b w) (step (gmove R g m) a b k).2.1 ha1b
      set W := (minLoop R step ms g (min best w) a (min b w)
        (step (gmove R g m) a b k).2.1).1 with hWdef
      set T0 := ms.foldl (fun acc m1 => min acc (val (R.next g.cur m1))) best with hT0
      have hpw : ms.foldl (fun acc m1 => min acc (val (R.next g.cur m1))) (min best w) =
          min w T0 := foldlMin_pull _ ms best w
      have hpv : ms.foldl (fun acc m1 => min acc (val (R.next g.cur m1))) (min best v) =
          min v T0 := foldlMin_pull _ ms best v
      rcases le_or_lt b w with hbw | hwb
      · -- child failed high: b ≤ w, window unchanged
        have hwv : w ≤ v := hsound.2.1 hbw
        have hb1 : min b w = b := min_eq_left hbw
        refine ⟨le_trans ih0 (min_le_left best w), ?_, ?_, ?_⟩
        · intro h
          have h2 := ih1 h
          rw [hpw] at h2
          rw [hpv]
          rcases min_choice w T0 with h3 | h3
          · rw [h3] at h2
            have h4 : b ≤ w := hbw
            linarith
          · rw [h3] at h2
            exact le_trans (min_le_right v T0) h2
        · intro h
          have h2 := ih2 (hb1.le.trans h)
          rw [hpw] at h2
          rw [hpv]
          exact le_trans h2 (min_le_min hwv (le_refl T0))
        · intro h1 h2
          have h3 := ih3 h1 (h2.trans_eq hb1.symm)
          rw [hpw] at h3
          rw [hpv]
          have hWb : W < b := h2
          rcases min_choice w T0 with h4 | h4
          · rw [h4] at h3
            rw [h3] at hWb
            exact absurd hWb (not_lt.mpr hbw)
          · rw [h4] at h3
            have hT0v : T0 ≤ v := by
              rw [← h3]
              exact le_of_lt (lt_of_lt_of_le hWb (le_trans hbw hwv))
            rw [min_eq_right hT0v]
            exact h3
      · -- child value inside the window: exact
        have hb1 : min b w = w := min_eq_right (le_of_lt hwb)
        have hveq : w = v := hsound.2.2 haw hwb
        have hTT : ms.foldl (fun acc m1 => min acc (val (R.next g.cur m1))) (min best v) =
            ms.foldl (fun acc m1 => min acc (val (R.next g.cur m1))) (min best w) := by
          rw [← hveq]
        refine ⟨le_trans ih0 (min_le_left best w), ?_, ?_, ?_⟩
        · intro h
          rw [hTT]
          exact ih1 h
        · intro h
          have h2 : W ≤ w := le_trans ih0 (min_le_right best w)
          linarith
        · intro h1 h2
          rw [hTT]
          rcases lt_or_le W (min b w) with hlt | hle
          · exact ih3 h1 hlt
          · have hwW : w ≤ W := hb1 ▸ hle
            have hWw : W = w := le_antisymm (le_trans ih0 (min_le_right best w)) hwW
            have hWT : W ≤ ms.foldl (fun acc m1 => min acc (val (R.next g.cur m1))) (min best w) :=
              ih2 hle
            have hTW : ms.foldl (fun acc m1 => min acc (val (R.next g.cur m1))) (min best w) ≤ W :=
              le_trans (foldlMin_ge _ ms (min best w))
                (le_trans (min_le_right best w) (le_of_eq hWw.symm))
            exact le_antisymm hWT hTW

theorem minimax_ab (R : Rules Pos) (c : ℚ) :
    ∀ (d : ℕ) (g : GameObj Pos) (a b : ℚ) (isMax : Bool) (k : ℕ), a < b →
      abSound a b ((minimax R (fun _ => c) d g a b isMax k).1)
        (specValue R c d g.cur isMax) := by
  intro d
  induction d with
  | zero =>
    intro g a b isMax k _
    have h : (minimax R (fun _ => c) 0 g a b isMax k).1 = specValue R c 0 g.cur isMax := by
      simp only [minimax, specValue, constEval]
      rw [evaluateBoard_const]
    rw [h]
    exact abSound_self a b _
  | succ d ih =>
    intro g a b isMax k hab
    by_cases hover : R.over g.cur
    · have h : (minimax R (fun _ => c) (d + 1) g a b isMax k).1 =
          specValue R c (d + 1) g.cur isMax := by
        simp only [minimax, specValue, constEval, hover, if_true]
        rw [evaluateBoard_const]
      rw [h]
      exact abSound_self a b _
    · cases isMax with
      | true =>
        have h1 : (minimax R (fun _ => c) (d + 1) g a b true k).1 =
            (maxLoop R (fun g1 a1 b1 k1 => minimax R (fun _ => c) d g1 a1 b1 false k1)
              (R.legal g.cur) g (-9999) a b k).1 := by
          simp only [minimax, hover]
          rfl
        have h2 : specValue R c (d + 1) g.cur true =
            (R.legal g.cur).foldl
              (fun acc m => max acc (specValue R c d (R.next g.cur m) false)) (-9999) := by
          simp only [specValue, hover]
          rfl
        rw [h1, h2]
        exact (maxLoop_ab R _ (fun p => specValue R c d p false)
          (fun g1 a1 b1 k1 => minimax_gameObj R _ d g1 a1 b1 false k1)
          (fun g1 a1 b1 k1 h => ih g1 a1 b1 false k1 h)
          b (R.legal g.cur) g (-9999) a k hab).2
      | false =>
        have h1 : (minimax R (fun _ => c) (d + 1) g a b false k).1 =
            (minLoop R (fun g1 a1 b1 k1 => minimax R (fun _ => c) d g1 a1 b1 true k1)
              (R.legal g.cur) g 9999 a b k).1 := by
          simp only [minimax, hover]
          rfl
        have h2 : specValue R c (d + 1) g.cur false =
            (R.legal g.cur).foldl
              (fun acc m => min acc (specValue R c d (R.next g.cur m) true)) 9999 := by
          simp only [specValue, hover]
          rfl
        rw [h1, h2]
        exact (minLoop_ab R _ (fun p => specValue R c d p true)
          (fun g1 a1 b1 k1 => minimax_gameObj R _ d g1 a1 b1 true k1)
          (fun g1 a1 b1 k1 h => ih g1 a1 b1 true k1 h)
          a (R.legal g.cur) g 9999 b k hab).2

theorem minimax_const_eq_specValue (R : Rules Pos) {c : ℚ} (hc0 : 0 ≤ c) (hc1 : c < 1)
    (d : ℕ) (g : GameObj Pos) (isMax : Bool) (k : ℕ) :
    (minimax R (fun _ => c) d g (-100000) 100000 isMax k).1 =
      specValue R c d g.cur isMax := by
  obtain ⟨h1, h2, h3⟩ := minimax_ab R c d g (-100000) 100000 isMax k (by norm_num)
  have hB := abs_le.mp (specValue_abs R hc0 hc1 d g.cur isMax)
  have hlow : ¬ (minimax R (fun _ => c) d g (-100000) 100000 isMax k).1 ≤ -100000 := by
    intro h
    have := h1 h
    linarith
  have hhigh : ¬ (100000 : ℚ) ≤ (minimax R (fun _ => c) d g (-100000) 100000 isMax k).1 := by
    intro h
    have := h2 h
    linarith
  exact h3 (not_le.mp hlow) (not_le.mp hhigh)

/-! ### The root loop of getBestMove -/

theorem rootLoop_bm (R : Rules Pos) (r : ℕ → ℚ) (depth : ℕ) :
    ∀ (ms : List String) (g : GameObj Pos) (bm : Option String) (bv : ℚ)
      (isMax : Bool) (k : ℕ),
      (rootLoop R r depth ms g bm bv isMax k).1 = bm ∨
        ∃ m ∈ ms, (rootLoop R r depth ms g bm bv isMax k).1 = some m := by
  intro ms
  induction ms with
  | nil => intro g bm bv isMax k; exact Or.inl rfl
  | cons m ms ih =>
    intro g bm bv isMax k
    simp only [rootLoop]
    have step : ∀ (bm1 : Option String) (bv1 : ℚ) (k1 : ℕ),
        (bm1 = bm ∨ bm1 = some m) →
        (rootLoop R r depth ms (gundo (minimax R r (depth - 1) (gmove R g m)
            (-100000) 100000 (!isMax) k).2.2) bm1 bv1 isMax k1).1 = bm ∨
          ∃ m1 ∈ m :: ms, (rootLoop R r depth ms (gundo (minimax R r (depth - 1) (gmove R g m)
            (-100000) 100000 (!isMax) k).2.2) bm1 bv1 isMax k1).1 = some m1 := by
      intro bm1 bv1 k1 hbm1
      rcases ih (gundo (minimax R r (depth - 1) (gmove R g m)
          (-100000) 100000 (!isMax) k).2.2) bm1 bv1 isMax k1 with h | ⟨m1, hm1, h⟩
      · rcases hbm1 with h2 | h2
        · exact Or.inl (h.trans h2)
        · exact Or.inr ⟨m, List.mem_cons_self m ms, h.trans h2⟩
      · exact Or.inr ⟨m1, List.mem_cons_of_mem m hm1, h⟩
    split
    · split
      · exact step (some m) _ _ (Or.inr rfl)
      · exact step bm bv _ (Or.inl rfl)
    · split
      · exact step (some m) _ _ (Or.inr rfl)
      · exact step bm bv _ (Or.inl rfl)

theorem rootVals_abs (R : Rules Pos) (r : ℕ → ℚ) (hr : ∀ i, 0 ≤ r i ∧ r i < 1)
    (depth : ℕ) (isMax : Bool) (g : GameObj Pos) :
    ∀ (ms : List String) (k : ℕ) (w : ℚ),
      w ∈ rootVals R r depth isMax g ms k → |w| ≤ 57927 := by
  intro ms
  induction ms with
  | nil => intro k w hw; cases hw
  | cons m ms ih =>
    intro k w hw
    rcases List.mem_cons.mp hw with h | h
    · subst h
      exact minimax_abs R r hr (depth - 1) (gmove R g m) (-100000) 100000 (!isMax) k
    · exact ih _ w h

theorem rootLoop_max (R : Rules Pos) (r : ℕ → ℚ) (depth : ℕ) (g : GameObj Pos) :
    ∀ (ms : List String) (bm : Option String) (bv : ℚ) (k : ℕ),
      bv ≤ (rootLoop R r depth ms g bm bv true k).2.1 ∧
      (∀ w ∈ rootVals R r depth true g ms k,
        w ≤ (rootLoop R r depth ms g bm bv true k).2.1) ∧
      (((rootLoop R r depth ms g bm bv true k).1 = bm ∧
        (rootLoop R r depth ms g bm bv true k).2.1 = bv) ∨
       ∃ p ∈ ms.zip (rootVals R r depth true g ms k),
        (rootLoop R r depth ms g bm bv true k).1 = some p.1 ∧
        (rootLoop R r depth ms g bm bv true k).2.1 = p.2) := by
  intro ms
  induction ms with
  | nil =>
    intro bm bv k
    exact ⟨le_refl bv, fun w hw => absurd hw (List.not_mem_nil w), Or.inl ⟨rfl, rfl⟩⟩
  | cons m ms ih =>
    intro bm bv k
    simp only [rootLoop, rootVals, minimax_gameObj, gundo_gmove, if_true]
    set v := (minimax R r (depth - 1) (gmove R g m) (-100000) 100000 (!true) k).1 with hvdef
    set k1 := (minimax R r (depth - 1) (gmove R g m) (-100000) 100000 (!true) k).2.1 with hk1def
    split
    · -- bv < v : the move improves
      rename_i himp
      obtain ⟨ih0, ih1, ih2⟩ := ih (some m) v k1
      refine ⟨le_trans (le_of_lt himp) ih0, ?_, ?_⟩
      · intro w hw
        rcases List.mem_cons.mp hw with h | h
        · exact h ▸ ih0
        · exact ih1 w h
      · rcases ih2 with ⟨h1, h2⟩ | ⟨p, hp, h1, h2⟩
        · exact Or.inr ⟨(m, v), List.mem_cons_self _ _, h1, h2⟩
        · exact Or.inr ⟨p, List.mem_cons_of_mem _ hp, h1, h2⟩
    · -- v ≤ bv : keep the previous best
      rename_i himp
      have hvbv : v ≤ bv := not_lt.mp himp
      obtain ⟨ih0, ih1, ih2⟩ := ih bm bv k1
      refine ⟨ih0, ?_, ?_⟩
      · intro w hw
        rcases List.mem_cons.mp hw with h | h
        · exact h ▸ le_trans hvbv ih0
        · exact ih1 w h
      · rcases ih2 with ⟨h1, h2⟩ | ⟨p, hp, h1, h2⟩
        · exact Or.inl ⟨h1, h2⟩
        · exact Or.inr ⟨p, List.mem_cons_of_mem _ hp, h1, h2⟩

theorem rootLoop_min (R : Rules Pos) (r : ℕ → ℚ) (depth : ℕ) (g : GameObj Pos) :
    ∀ (ms : List String) (bm : Option String) (bv : ℚ) (k : ℕ),
      (rootLoop R r depth ms g bm bv false k).2.1 ≤ bv ∧
      (∀ w ∈ rootVals R r depth false g ms k,
        (rootLoop R r depth ms g bm bv false k).2.1 ≤ w) ∧
      (((rootLoop R r depth ms g bm bv false k).1 = bm ∧
        (rootLoop R r depth ms g bm bv false k).2.1 = bv) ∨
       ∃ p ∈ ms.zip (rootVals R r depth false g ms k),
        (rootLoop R r depth ms g bm bv false k).1 = some p.1 ∧
        (rootLoop R r depth ms g bm bv false k).2.1 = p.2) := by
  intro ms
  induction ms with
  | nil =>
    intro bm bv k
    exact ⟨le_refl bv, fun w hw => absurd hw (List.not_mem_nil w), Or.inl ⟨rfl, rfl⟩⟩
  | cons m ms ih =>
    intro bm bv k
    simp only [rootLoop, rootVals, minimax_gameObj, gundo_gmove, Bool.false_eq_true, if_false]
    set v := (minimax R r (depth - 1) (gmove R g m) (-100000) 100000 (!false) k).1 with hvdef
    set k1 := (minimax R r (depth - 1) (gmove R g m) (-100000) 100000 (!false) k).2.1 with hk1def
    split
    · -- v < bv : the move improves
      rename_i himp
      obtain ⟨ih0, ih1, ih2⟩ := ih (some m) v k1
      refine ⟨le_trans ih0 (le_of_lt himp), ?_, ?_⟩
      · intro w hw
        rcases List.mem_cons.mp hw with h | h
        · exact h ▸ ih0
        · exact ih1 w h
      · rcases ih2 with ⟨h1, h2⟩ | ⟨p, hp, h1, h2⟩
        · exact Or.inr ⟨(m, v), List.mem_cons_self _ _, h1, h2⟩
        · exact Or.inr ⟨p, List.mem_cons_of_mem _ hp, h1, h2⟩
    · -- bv ≤ v : keep the previous best
      rename_i himp
      have hvbv : bv ≤ v := not_lt.mp himp
      obtain ⟨ih0, ih1, ih2⟩ := ih bm bv k1
      refine ⟨ih0, ?_, ?_⟩
      · intro w hw
        rcases List.mem_cons.mp hw with h | h
        · exact h ▸ le_trans ih0 hvbv
        · exact ih1 w h
      · rcases ih2 with ⟨h1, h2⟩ | ⟨p, hp, h1, h2⟩
        · exact Or.inl ⟨h1, h2⟩
        · exact Or.inr ⟨p, List.mem_cons_of_mem _ hp, h1, h2⟩

/-! ### Evaluating concrete boards -/

theorem squares_nodup : squares.Nodup := by decide

theorem mem_squares : ∀ p : Fin 8 × Fin 8, p ∈ squares := by decide

theorem emptyFold (r : ℕ → ℚ) :
    ∀ (l : List (Fin 8 × Fin 8)) (a : ℚ) (k : ℕ),
      (l.foldl
        (fun acc ij =>
          match emptyBoard ij.1 ij.2 with
          | none => acc
          | some pc => (acc.1 + pieceScore pc ij.1 ij.2 (r acc.2 * (1/10)), acc.2 + 1))
        (a, k)) = (a, k) := by
  intro l
  induction l with
  | nil => intro a k; rfl
  | cons ij l ih => intro a k; exact ih a k

theorem evaluateBoard_empty (r : ℕ → ℚ) (k : ℕ) :
    evaluateBoard emptyBoard r k = (0, k) :=
  emptyFold r squares 0 k

theorem singleBoard_at (iw jw : Fin 8) (pc : Piece) :
    singleBoard iw jw pc iw jw = some pc := by
  simp [singleBoard]

theorem singleBoard_ne (iw jw : Fin 8) (pc : Piece) {i j : Fin 8}
    (h : (i, j) ≠ (iw, jw)) : singleBoard iw jw pc i j = none := by
  have h2 : ¬(i = iw ∧ j = jw) := by
    intro ⟨h3, h4⟩
    exact h (by rw [h3, h4])
  simp [singleBoard, h2]

theorem singleFold_zero (iw jw : Fin 8) (pc : Piece) (r : ℕ → ℚ) :
    ∀ (l : List (Fin 8 × Fin 8)), (iw, jw) ∉ l → ∀ (a : ℚ) (k : ℕ),
      (l.foldl
        (fun acc ij =>
          match singleBoard iw jw pc ij.1 ij.2 with
          | none => acc
          | some pc1 => (acc.1 + pieceScore pc1 ij.1 ij.2 (r acc.2 * (1/10)), acc.2 + 1))
        (a, k)) = (a, k) := by
  intro l
  induction l with
  | nil => intro _ a k; rfl
  | cons ij l ih =>
    intro hmem a k
    have hne : (ij.1, ij.2) ≠ (iw, jw) := by
      intro h
      exact hmem (by rw [List.mem_cons]; left; rw [← h])
    simp only [List.foldl_cons, singleBoard_ne iw jw pc hne]
    exact ih (fun h => hmem (List.mem_cons_of_mem ij h)) a k

theorem singleFold_one (iw jw : Fin 8) (pc : Piece) (r : ℕ → ℚ) :
    ∀ (l : List (Fin 8 × Fin 8)), l.Nodup → (iw, jw) ∈ l → ∀ (a : ℚ) (k : ℕ),
      (l.foldl
        (fun acc ij =>
          match singleBoard iw jw pc ij.1 ij.2 with
          | none => acc
          | some pc1 => (acc.1 + pieceScore pc1 ij.1 ij.2 (r acc.2 * (1/10)), acc.2 + 1))
        (a, k)) = (a + pieceScore pc iw jw (r k * (1/10)), k + 1) := by
  intro l
  induction l with
  | nil => intro _ h; cases h
  | cons ij l ih =>
    intro hnd hmem a k
    rcases List.nodup_cons.mp hnd with ⟨hnotmem, hnd2⟩
    by_cases hij : ij = (iw, jw)
    · subst hij
      have h1 : singleBoard iw jw pc iw jw = some pc := singleBoard_at iw jw pc
      simp only [List.foldl_cons, h1]
      exact singleFold_zero iw jw pc r l hnotmem _ _
    · have h1 : (ij.1, ij.2) ≠ (iw, jw) := by
        intro h
        exact hij (by rw [← h])
      simp only [List.foldl_cons, singleBoard_ne iw jw pc h1]
      have hmem2 : (iw, jw) ∈ l := by
        rcases List.mem_cons.mp hmem with h | h
        · exact absurd h.symm hij
        · exact h
      exact ih hnd2 hmem2 a k

theorem evaluateBoard_single (iw jw : Fin 8) (pc : Piece) (r : ℕ → ℚ) (k : ℕ) :
    evaluateBoard (singleBoard iw jw pc) r k =
      (pieceScore pc iw jw (r k * (1/10)), k + 1) :=
  singleFold_one iw jw pc r squares squares_nodup (mem_squares (iw, jw)) 0 k
    |>.trans (by rw [zero_add])

theorem pieceScore_wp (jit : ℚ) : pieceScore ⟨.p, .white⟩ 0 0 jit = 10 + jit := by
  simp [pieceScore, positionBonus, PIECE_VALUES, tableAt, PAWN_TABLE]

theorem pieceScore_bp (jit : ℚ) : pieceScore ⟨.p, .black⟩ 0 0 jit = -(10 + jit) := by
  simp [pieceScore, positionBonus, PIECE_VALUES, tableAt, PAWN_TABLE]

theorem pieceScore_wq (jit : ℚ) : pieceScore ⟨.q, .white⟩ 0 0 jit = 90 + jit := by
  simp [pieceScore, positionBonus, PIECE_VALUES]

theorem evaluateBoard_wp (r : ℕ → ℚ) (k : ℕ) :
    evaluateBoard boardWP r k = (10 + r k * (1/10), k + 1) := by
  rw [boardWP, evaluateBoard_single, pieceScore_wp]

theorem evaluateBoard_bp (r : ℕ → ℚ) (k : ℕ) :
    evaluateBoard boardBP r k = (-(10 + r k * (1/10)), k + 1) := by
  rw [boardBP, evaluateBoard_single, pieceScore_bp]

theorem evaluateBoard_wq (r : ℕ → ℚ) (k : ℕ) :
    evaluateBoard boardWQ r k = (90 + r k * (1/10), k + 1) := by
  rw [boardWQ, evaluateBoard_single, pieceScore_wq]

/-! ### Small utilities -/

theorem jsIndex_mem {xs : List String} {i : ℤ} {m : String}
    (h : jsIndex xs i = some m) : m ∈ xs := by
  unfold jsIndex at h
  split at h
  · cases h
  · exact List.get?_mem h

theorem headI_mem {xs : List String} (h : xs ≠ []) : xs.headI ∈ xs := by
  cases xs with
  | nil => exact absurd rfl h
  | cons x xs => exact List.mem_cons_self x xs

theorem getBestMove_beginner (R : Rules Pos) (g : GameObj Pos) (r : ℕ → ℚ) (k : ℕ)
    (hmoves : R.legal g.cur ≠ []) :
    getBestMove R g "Beginner" r k =
      (jsIndex (R.legal g.cur) ⌊r k * ((R.legal g.cur).length : ℚ)⌋, k + 1, g) := by
  have h0 : ¬((R.legal g.cur).length = 0) := by
    rwa [ne_eq, ← List.length_eq_zero] at hmoves
  simp only [getBestMove]
  rw [if_neg h0, if_true]

theorem getBestMove_search (R : Rules Pos) (g : GameObj Pos) (difficulty : String)
    (r : ℕ → ℚ) (k : ℕ) (hmoves : R.legal g.cur ≠ []) (hdiff : difficulty ≠ "Beginner") :
    getBestMove R g difficulty r k =
      (some (jsOrElse
        (rootLoop R r (depthFor difficulty) (R.legal g.cur) g none
          (if R.whiteTurn g.cur then -99999 else 99999) (R.whiteTurn g.cur) k).1
        (R.legal g.cur).headI),
       (rootLoop R r (depthFor difficulty) (R.legal g.cur) g none
          (if R.whiteTurn g.cur then -99999 else 99999) (R.whiteTurn g.cur) k).2.2.1,
       (rootLoop R r (depthFor difficulty) (R.legal g.cur) g none
          (if R.whiteTurn g.cur then -99999 else 99999) (R.whiteTurn g.cur) k).2.2.2) := by
  have h0 : ¬((R.legal g.cur).length = 0) := by
    rwa [ne_eq, ← List.length_eq_zero] at hmoves
  simp only [getBestMove]
  rw [if_neg h0, if_neg hdiff]

theorem beginner_floor {n t : ℕ} {x : ℚ} (ht : t < n)
    (h1 : (t : ℚ) / (n : ℚ) ≤ x) (h2 : x < ((t : ℚ) + 1) / (n : ℚ)) :
    ⌊x * (n : ℚ)⌋ = (t : ℤ) := by
  have hn : (0 : ℚ) < (n : ℚ) := by
    have : 0 < n := Nat.lt_of_le_of_lt (Nat.zero_le t) ht
    exact_mod_cast this
  have ha : (t : ℚ) ≤ x * (n : ℚ) := (div_le_iff hn).mp h1
  have hb : x * (n : ℚ) < (t : ℚ) + 1 := (lt_div_iff hn).mp h2
  rw [Int.floor_eq_iff]
  constructor
  · push_cast
    exact ha
  · push_cast
    exact hb

theorem jsIndex_natCast (xs : List String) (t : ℕ) :
    jsIndex xs (t : ℤ) = xs.get? t := by
  unfold jsIndex
  rw [if_neg (by omega), Int.toNat_natCast]

/-! ### Claim theorems -/

/-- C1: in the implemented `minimax`, a position where the game is over (in
particular a checkmate with no legal moves) is scored by the negated plain
material evaluation, not by a checkmate-scaled sentinel: at a mated position
where white is a queen up, `minimax` at depth 3 returns `-90` — a plain
material count that is neither `0` nor of checkmate-sentinel magnitude. -/
theorem c1_gameOver_plain_evaluation :
    (minimax mateR rzero 3 ⟨0, []⟩ (-100000) 100000 true 0).1 =
      -(evaluateBoard (mateR.boardOf 0) rzero 0).1 ∧
    (minimax mateR rzero 3 ⟨0, []⟩ (-100000) 100000 true 0).1 = -90 ∧
    (-9999 : ℚ) < -90 ∧ ((-90 : ℚ) ≠ 0) := by
  have h1 : (minimax mateR rzero 3 ⟨0, []⟩ (-100000) 100000 true 0).1 =
      -(evaluateBoard (mateR.boardOf 0) rzero 0).1 := by
    simp [minimax, mateR]
  have h2 : (evaluateBoard (mateR.boardOf 0) rzero 0).1 = 90 := by
    have : mateR.boardOf 0 = boardWQ := rfl
    rw [this, evaluateBoard_wq]
    norm_num [rzero]
  exact ⟨h1, by rw [h1, h2], by norm_num, by norm_num⟩

/-- C2: the implemented `evaluateBoard` adds the random jitter
`Math.random() * 0.1` to every occupied square, so its result depends on the
random stream: on a board with a single white pawn it returns `10` when the
draw is `0` and `10.05` when the draw is `0.5` — evaluation of the same
position is not deterministic. -/
theorem c2_evaluation_depends_on_jitter :
    (evaluateBoard boardWP rzero 0).1 = 10 ∧
    (evaluateBoard boardWP rhalf 0).1 = 201/20 ∧
    (evaluateBoard boardWP rzero 0).1 ≠ (evaluateBoard boardWP rhalf 0).1 := by
  have h1 : (evaluateBoard boardWP rzero 0).1 = 10 := by
    rw [evaluateBoard_wp]
    norm_num [rzero]
  have h2 : (evaluateBoard boardWP rhalf 0).1 = 201/20 := by
    rw [evaluateBoard_wp]
    norm_num [rhalf]
  exact ⟨h1, h2, by rw [h1, h2]; norm_num⟩

/-- C3 counterexample: at depth 0 `minimax` does NOT return
`evaluate(position)` — on a board with a single white pawn whose evaluation
is `10`, `minimax` at depth 0 returns `-10`, so a sign flip is applied. -/
theorem c3_depth0_counterexample :
    (minimax pawnR rzero 0 ⟨0, []⟩ (-100000) 100000 true 0).1 ≠
      (evaluateBoard (pawnR.boardOf 0) rzero 0).1 := by
  have hb : pawnR.boardOf 0 = boardWP := rfl
  have h1 : (minimax pawnR rzero 0 ⟨0, []⟩ (-100000) 100000 true 0).1 =
      -(evaluateBoard (pawnR.boardOf 0) rzero 0).1 := rfl
  have h2 : (evaluateBoard (pawnR.boardOf 0) rzero 0).1 = 10 := by
    rw [hb, evaluateBoard_wp]
    norm_num [rzero]
  rw [h1, h2]
  norm_num

/-- C3 (amended): at a search-tree leaf (`depth == 0`), `minimax` returns
the NEGATION of `evaluateBoard(position)` — a sign flip is applied to the
evaluator's white-positive result, for every rules instance, position,
window, player flag and random stream. -/
theorem c3_depth0_returns_negated_evaluation {Pos : Type} (R : Rules Pos)
    (r : ℕ → ℚ) (g : GameObj Pos) (a b : ℚ) (isMax : Bool) (k : ℕ) :
    (minimax R r 0 g a b isMax k).1 = -(evaluateBoard (R.boardOf g.cur) r k).1 := rfl

/-- C5 counterexample: with the random jitter of the implemented evaluator,
alpha-beta `minimax` and full minimax without pruning return different root
scores on the same position and depth: on the depth-2 game tree, pruning
skips one leaf, the later random draws shift, and the pruned search returns
`10.09` while the full search returns `10`. -/
theorem c5_pruning_counterexample :
    (minimax treeR rjit 2 ⟨TPos.root, []⟩ (-100000) 100000 true 0).1 ≠
      (minimaxFull treeR rjit 2 ⟨TPos.root, []⟩ true 0).1 := by
  have h1 : (minimax treeR rjit 2 ⟨TPos.root, []⟩ (-100000) 100000 true 0).1 = 1009/100 := by
    norm_num [minimax, maxLoop, minLoop, treeR, treeNext, treeLegal, leafBoard, gmove,
      gundo, evaluateBoard_empty, evaluateBoard_wp, evaluateBoard_bp, rjit]
  have h2 : (minimaxFull treeR rjit 2 ⟨TPos.root, []⟩ true 0).1 = 10 := by
    norm_num [minimaxFull, fullLoop, treeR, treeNext, treeLegal, leafBoard, gmove,
      gundo, evaluateBoard_empty, evaluateBoard_wp, evaluateBoard_bp, rjit]
  rw [h1, h2]
  norm_num

/-- C5 (amended): when every `Math.random()` draw returns the same constant
in `[0, 1)` — i.e. with a deterministic evaluator — alpha-beta `minimax` at
the implemented root window and full minimax with no pruning return the
identical root score for every rules instance, position, depth, player flag
and random indices. -/
theorem c5_pruning_equivalence_const_jitter {Pos : Type} (R : Rules Pos) {c : ℚ}
    (hc0 : 0 ≤ c) (hc1 : c < 1) (d : ℕ) (g : GameObj Pos) (isMax : Bool) (k j : ℕ) :
    (minimax R (fun _ => c) d g (-100000) 100000 isMax k).1 =
      (minimaxFull R (fun _ => c) d g isMax j).1 := by
  rw [minimax_const_eq_specValue R hc0 hc1 d g isMax k, minimaxFull_val R c d g isMax j]

/-- C5 witness: the amended pruning equivalence evaluated on the concrete
depth-2 game tree with the all-zero stream. -/
theorem c5_pruning_equivalence_witness :
    (0 : ℚ) ≤ 0 ∧ (0 : ℚ) < 1 ∧
    (minimax treeR (fun _ => (0 : ℚ)) 2 ⟨TPos.root, []⟩ (-100000) 100000 true 0).1 =
      (minimaxFull treeR (fun _ => (0 : ℚ)) 2 ⟨TPos.root, []⟩ true 0).1 :=
  ⟨le_refl 0, by norm_num,
    c5_pruning_equivalence_const_jitter treeR (le_refl 0) (by norm_num) 2 ⟨TPos.root, []⟩ true 0 0⟩

/-- C6: on a position with zero legal moves (checkmate or stalemate),
`getBestMove` returns the `null` sentinel, unchanged random index and
unchanged game object, for every difficulty. -/
theorem c6_no_moves_returns_null {Pos : Type} (R : Rules Pos) (g : GameObj Pos)
    (difficulty : String) (r : ℕ → ℚ) (k : ℕ) (h : R.legal g.cur = []) :
    getBestMove R g difficulty r k = (none, k, g) := by
  simp [getBestMove, h]

/-- C6 witness: the no-move sentinel on the concrete checkmated position. -/
theorem c6_no_moves_witness :
    mateR.legal (⟨0, []⟩ : GameObj ℕ).cur = [] ∧
    getBestMove mateR ⟨0, []⟩ "Hard" rzero 0 = (none, 0, ⟨0, []⟩) :=
  ⟨rfl, c6_no_moves_returns_null mateR ⟨0, []⟩ "Hard" rzero 0 rfl⟩

/-- C8: `getBestMove` never mutates the caller's game object: the game
object after the call is exactly the one passed in — every `game.move`
issued during the search is paired with a `game.undo`. -/
theorem c8_getBestMove_preserves_game {Pos : Type} (R : Rules Pos) (g : GameObj Pos)
    (difficulty : String) (r : ℕ → ℚ) (k : ℕ) :
    (getBestMove R g difficulty r k).2.2 = g := by
  simp only [getBestMove]
  split
  · rfl
  · split
    · rfl
    · exact rootLoop_gameObj R r (depthFor difficulty) (R.legal g.cur) g none _ _ k

/-- C7: every move `getBestMove` returns is an element of the legal-move
list the rules engine reports for the exact position passed in, for every
difficulty and random stream. -/
theorem c7_returned_move_is_legal {Pos : Type} (R : Rules Pos) (g : GameObj Pos)
    (difficulty : String) (r : ℕ → ℚ) (k : ℕ) (m : String)
    (h : (getBestMove R g difficulty r k).1 = some m) : m ∈ R.legal g.cur := by
  by_cases h0 : (R.legal g.cur).length = 0
  · simp only [getBestMove, if_pos h0] at h
    cases h
  · have hmoves : R.legal g.cur ≠ [] := by
      rwa [ne_eq, ← List.length_eq_zero]
    by_cases hB : difficulty = "Beginner"
    · subst hB
      rw [getBestMove_beginner R g r k hmoves] at h
      exact jsIndex_mem h
    · rw [getBestMove_search R g difficulty r k hmoves hB] at h
      have hm : m = jsOrElse
          (rootLoop R r (depthFor difficulty) (R.legal g.cur) g none
            (if R.whiteTurn g.cur then -99999 else 99999) (R.whiteTurn g.cur) k).1
          (R.legal g.cur).headI := (Option.some_inj.mp h).symm
      rcases rootLoop_bm R r (depthFor difficulty) (R.legal g.cur) g none
          (if R.whiteTurn g.cur then -99999 else 99999) (R.whiteTurn g.cur) k with
        hbm | ⟨m1, hm1, hbm⟩
      · rw [hbm] at hm
        rw [hm]
        exact headI_mem hmoves
      · rw [hbm] at hm
        simp only [jsOrElse] at hm
        split at hm
        · rw [hm]
          exact headI_mem hmoves
        · rw [hm]
          exact hm1

/-- C7 witness: on the concrete two-move game at Beginner with the all-zero
stream, `getBestMove` returns the move `"a"`, which is legal. -/
theorem c7_returned_move_witness :
    (getBestMove twoR ⟨0, []⟩ "Beginner" rzero 0).1 = some "a" ∧
    "a" ∈ twoR.legal (⟨0, []⟩ : GameObj ℕ).cur := by
  have h : (getBestMove twoR ⟨0, []⟩ "Beginner" rzero 0).1 = some "a" := by
    rw [getBestMove_beginner twoR ⟨0, []⟩ rzero 0 (by simp [twoR])]
    norm_num [twoR, rzero, jsIndex]
  exact ⟨h, c7_returned_move_is_legal twoR ⟨0, []⟩ "Beginner" rzero 0 "a" h⟩

/-- C4: for every non-Beginner difficulty, a position with at least one
legal move, no empty-string moves, and a `Math.random()` stream within its
contract, the move `getBestMove` selects carries a root score from the list
of root scores, and that score is the maximum of the list when white (the
first mover) is to move at the root and the minimum when black is to move:
the maximizing/minimizing perspective is derived from `game.turn()`. -/
theorem c4_root_perspective_from_side_to_move {Pos : Type} (R : Rules Pos)
    (g : GameObj Pos) (difficulty : String) (r : ℕ → ℚ) (k : ℕ)
    (hmoves : R.legal g.cur ≠ []) (hdiff : difficulty ≠ "Beginner")
    (hr : ∀ i, 0 ≤ r i ∧ r i < 1) (hne : ∀ m ∈ R.legal g.cur, m ≠ "") :
    ∃ m v, (getBestMove R g difficulty r k).1 = some m ∧
      (m, v) ∈ (R.legal g.cur).zip
        (rootVals R r (depthFor difficulty) (R.whiteTurn g.cur) g (R.legal g.cur) k) ∧
      (R.whiteTurn g.cur = true →
        ∀ w ∈ rootVals R r (depthFor difficulty) (R.whiteTurn g.cur) g (R.legal g.cur) k,
          w ≤ v) ∧
      (R.whiteTurn g.cur = false →
        ∀ w ∈ rootVals R r (depthFor difficulty) (R.whiteTurn g.cur) g (R.legal g.cur) k,
          v ≤ w) := by
  rw [getBestMove_search R g difficulty r k hmoves hdiff]
  have habs : ∀ w ∈ rootVals R r (depthFor difficulty) (R.whiteTurn g.cur) g
      (R.legal g.cur) k, |w| ≤ 57927 :=
    fun w hw => rootVals_abs R r hr (depthFor difficulty) (R.whiteTurn g.cur) g
      (R.legal g.cur) k w hw
  have hvals_ne : rootVals R r (depthFor difficulty) (R.whiteTurn g.cur) g
      (R.legal g.cur) k ≠ [] := by
    cases hl : R.legal g.cur with
    | nil => exact absurd hl hmoves
    | cons m0 ms0 => simp [rootVals, hl]
  cases hw : R.whiteTurn g.cur with
  | true =>
    rw [hw] at habs hvals_ne
    simp only [if_true]
    obtain ⟨h0, h1, h2⟩ := rootLoop_max R r (depthFor difficulty) g (R.legal g.cur)
      none (-99999) k
    rcases h2 with ⟨hbm, hbv⟩ | ⟨p, hp, hbm, hbv⟩
    · exfalso
      cases hv : rootVals R r (depthFor difficulty) true g (R.legal g.cur) k with
      | nil => exact hvals_ne hv
      | cons v0 vs0 =>
        have hv0 := h1 v0 (hv ▸ List.mem_cons_self v0 vs0)
        rw [hbv] at hv0
        have := abs_le.mp (habs v0 (by rw [hv]; exact List.mem_cons_self v0 vs0))
        linarith [this.1]
    · have hp1 : p.1 ∈ R.legal g.cur := (List.of_mem_zip hp).1
      refine ⟨p.1, p.2, ?_, ?_, ?_, ?_⟩
      · rw [hbm]
        simp only [jsOrElse, if_neg (hne p.1 hp1)]
      · exact hp
      · intro _ w hwv
        rw [← hbv]
        exact h1 w hwv
      · intro hfalse
        exact Bool.noConfusion hfalse
  | false =>
    rw [hw] at habs hvals_ne
    simp only [Bool.false_eq_true, if_false]
    obtain ⟨h0, h1, h2⟩ := rootLoop_min R r (depthFor difficulty) g (R.legal g.cur)
      none 99999 k
    rcases h2 with ⟨hbm, hbv⟩ | ⟨p, hp, hbm, hbv⟩
    · exfalso
      cases hv : rootVals R r (depthFor difficulty) false g (R.legal g.cur) k with
      | nil => exact hvals_ne hv
      | cons v0 vs0 =>
        have hv0 := h1 v0 (hv ▸ List.mem_cons_self v0 vs0)
        rw [hbv] at hv0
        have := abs_le.mp (habs v0 (by rw [hv]; exact List.mem_cons_self v0 vs0))
        linarith [this.2]
    · have hp1 : p.1 ∈ R.legal g.cur := (List.of_mem_zip hp).1
      refine ⟨p.1, p.2, ?_, ?_, ?_, ?_⟩
      · rw [hbm]
        simp only [jsOrElse, if_neg (hne p.1 hp1)]
      · exact hp
      · intro htrue
        exact htrue.elim
      · intro _ w hwv
        rw [← hbv]
        exact h1 w hwv

/-- C4 witness: the root-perspective theorem evaluated on the concrete
two-move game at Hard with the all-zero stream. -/
theorem c4_root_perspective_witness :
    twoR.legal (⟨0, []⟩ : GameObj ℕ).cur ≠ [] ∧
    ("Hard" : String) ≠ "Beginner" ∧
    (∀ i, 0 ≤ rzero i ∧ rzero i < 1) ∧
    (∀ m ∈ twoR.legal (⟨0, []⟩ : GameObj ℕ).cur, m ≠ "") ∧
    (∃ m v, (getBestMove twoR ⟨0, []⟩ "Hard" rzero 0).1 = some m ∧
      (m, v) ∈ (twoR.legal (⟨0, []⟩ : GameObj ℕ).cur).zip
        (rootVals twoR rzero (depthFor "Hard")
          (twoR.whiteTurn (⟨0, []⟩ : GameObj ℕ).cur) ⟨0, []⟩
          (twoR.legal (⟨0, []⟩ : GameObj ℕ).cur) 0) ∧
      (twoR.whiteTurn (⟨0, []⟩ : GameObj ℕ).cur = true →
        ∀ w ∈ rootVals twoR rzero (depthFor "Hard")
          (twoR.whiteTurn (⟨0, []⟩ : GameObj ℕ).cur) ⟨0, []⟩
          (twoR.legal (⟨0, []⟩ : GameObj ℕ).cur) 0, w ≤ v) ∧
      (twoR.whiteTurn (⟨0, []⟩ : GameObj ℕ).cur = false →
        ∀ w ∈ rootVals twoR rzero (depthFor "Hard")
          (twoR.whiteTurn (⟨0, []⟩ : GameObj ℕ).cur) ⟨0, []⟩
          (twoR.legal (⟨0, []⟩ : GameObj ℕ).cur) 0, v ≤ w)) := by
  refine ⟨by simp [twoR], by simp, fun i => ⟨le_refl 0, by norm_num [rzero]⟩,
    by simp [twoR], ?_⟩
  exact c4_root_perspective_from_side_to_move twoR ⟨0, []⟩ "Hard" rzero 0
    (by simp [twoR]) (by simp) (fun i => ⟨le_refl 0, by norm_num [rzero]⟩)
    (by simp [twoR])

/-- C9: Beginner-mode selection is independent of everything except the
legal-move list (two rules engines agreeing on the legal moves produce the
same result — no search and no evaluation is performed), it consumes exactly
one random draw, and the draw interval `[t/n, (t+1)/n)` selects exactly the
`t`-th of the `n` legal moves, so a uniform `Math.random()` selects
uniformly among all legal moves. -/
theorem c9_beginner_uniform_no_search {Pos : Type} (R1 R2 : Rules Pos)
    (g : GameObj Pos) (r : ℕ → ℚ) (k t : ℕ)
    (hlegal : R1.legal g.cur = R2.legal g.cur)
    (ht : t < (R1.legal g.cur).length)
    (h1 : (t : ℚ) / ((R1.legal g.cur).length : ℚ) ≤ r k)
    (h2 : r k < ((t : ℚ) + 1) / ((R1.legal g.cur).length : ℚ)) :
    getBestMove R1 g "Beginner" r k = getBestMove R2 g "Beginner" r k ∧
    (getBestMove R1 g "Beginner" r k).1 = (R1.legal g.cur).get? t ∧
    (getBestMove R1 g "Beginner" r k).2.1 = k + 1 := by
  have hne1 : R1.legal g.cur ≠ [] := by
    intro h
    rw [h] at ht
    exact Nat.not_lt_zero t ht
  have hne2 : R2.legal g.cur ≠ [] := hlegal ▸ hne1
  have hfloor : ⌊r k * ((R1.legal g.cur).length : ℚ)⌋ = (t : ℤ) :=
    beginner_floor ht h1 h2
  refine ⟨?_, ?_, ?_⟩
  · rw [getBestMove_beginner R1 g r k hne1, getBestMove_beginner R2 g r k hne2, hlegal]
  · rw [getBestMove_beginner R1 g r k hne1]
    show jsIndex (R1.legal g.cur) ⌊r k * ((R1.legal g.cur).length : ℚ)⌋ =
      (R1.legal g.cur).get? t
    rw [hfloor, jsIndex_natCast]
  · rw [getBestMove_beginner R1 g r k hne1]

/-- C9 witness: on the concrete two-move game with the constant-one-half
stream, the draw `0.5 ∈ [1/2, 1)` selects the second move, independently of
the rest of the rules engine. -/
theorem c9_beginner_witness :
    twoR.legal (⟨0, []⟩ : GameObj ℕ).cur = twoR.legal (⟨0, []⟩ : GameObj ℕ).cur ∧
    1 < (twoR.legal (⟨0, []⟩ : GameObj ℕ).cur).length ∧
    ((1 : ℚ)) / ((twoR.legal (⟨0, []⟩ : GameObj ℕ).cur).length : ℚ) ≤ rhalf 0 ∧
    rhalf 0 < ((1 : ℚ) + 1) / ((twoR.legal (⟨0, []⟩ : GameObj ℕ).cur).length : ℚ) ∧
    ((getBestMove twoR ⟨0, []⟩ "Beginner" rhalf 0 =
        getBestMove twoR ⟨0, []⟩ "Beginner" rhalf 0) ∧
      (getBestMove twoR ⟨0, []⟩ "Beginner" rhalf 0).1 =
        (twoR.legal (⟨0, []⟩ : GameObj ℕ).cur).get? 1 ∧
      (getBestMove twoR ⟨0, []⟩ "Beginner" rhalf 0).2.1 = 0 + 1) := by
  refine ⟨rfl, by simp [twoR], by simp [twoR, rhalf],
    by simp only [twoR, rhalf]; norm_num, ?_⟩
  exact c9_beginner_uniform_no_search twoR twoR ⟨0, []⟩ rhalf 0 1 rfl
    (by simp [twoR]) (by simp [twoR, rhalf]) (by simp only [twoR, rhalf]; norm_num)

/-- C10: for every position with a non-empty legal-move list and every
difficulty string, `getBestMove` returns a non-null move (Beginner needing
only the `Math.random()` contract); any string other than the three
recognized search difficulties silently receives the default depth 1; and
whenever the root loop improves on no move, the first legal move is
returned as the fallback. -/
theorem c10_nonempty_returns_move {Pos : Type} (R : Rules Pos) (g : GameObj Pos)
    (difficulty : String) (r : ℕ → ℚ) (k : ℕ)
    (hmoves : R.legal g.cur ≠ [])
    (hrB : difficulty = "Beginner" → 0 ≤ r k ∧ r k < 1) :
    (∃ m, (getBestMove R g difficulty r k).1 = some m) ∧
    (difficulty ≠ "Easy" → difficulty ≠ "Hard" → difficulty ≠ "Master" →
      depthFor difficulty = 1) ∧
    (difficulty ≠ "Beginner" →
      (rootLoop R r (depthFor difficulty) (R.legal g.cur) g none
        (if R.whiteTurn g.cur then -99999 else 99999) (R.whiteTurn g.cur) k).1 = none →
      (getBestMove R g difficulty r k).1 = some (R.legal g.cur).headI) := by
  refine ⟨?_, ?_, ?_⟩
  · by_cases hB : difficulty = "Beginner"
    · subst hB
      obtain ⟨hr0, hr1⟩ := hrB rfl
      rw [getBestMove_beginner R g r k hmoves]
      have hlen : 0 < (R.legal g.cur).length := List.length_pos.mpr hmoves
      have hlenQ : (0 : ℚ) < ((R.legal g.cur).length : ℚ) := by exact_mod_cast hlen
      have hfl0 : 0 ≤ ⌊r k * ((R.legal g.cur).length : ℚ)⌋ :=
        Int.floor_nonneg.mpr (mul_nonneg hr0 (le_of_lt hlenQ))
      have hfln : ⌊r k * ((R.legal g.cur).length : ℚ)⌋ < ((R.legal g.cur).length : ℤ) := by
        rw [Int.floor_lt]
        push_cast
        calc r k * ((R.legal g.cur).length : ℚ)
            < 1 * ((R.legal g.cur).length : ℚ) := mul_lt_mul_of_pos_right hr1 hlenQ
          _ = ((R.legal g.cur).length : ℚ) := one_mul _
      have htoNat : (⌊r k * ((R.legal g.cur).length : ℚ)⌋).toNat < (R.legal g.cur).length := by
        omega
      refine ⟨(R.legal g.cur).get ⟨(⌊r k * ((R.legal g.cur).length : ℚ)⌋).toNat, htoNat⟩, ?_⟩
      show jsIndex (R.legal g.cur) ⌊r k * ((R.legal g.cur).length : ℚ)⌋ = _
      unfold jsIndex
      rw [if_neg (not_lt.mpr hfl0)]
      exact List.get?_eq_get htoNat
    · rw [getBestMove_search R g difficulty r k hmoves hB]
      exact ⟨_, rfl⟩
  · intro h1 h2 h3
    simp [depthFor, h1, h2, h3]
  · intro hB hroot
    rw [getBestMove_search R g difficulty r k hmoves hB]
    rw [hroot]
    rfl

/-- C10 witness: the unrecognized difficulty string `"Nightmare"` on the
concrete two-move game receives default depth 1 and still returns a move. -/
theorem c10_nonempty_returns_move_witness :
    twoR.legal (⟨0, []⟩ : GameObj ℕ).cur ≠ [] ∧
    (∃ m, (getBestMove twoR ⟨0, []⟩ "Nightmare" rzero 0).1 = some m) ∧
    depthFor "Nightmare" = 1 := by
  have h := c10_nonempty_returns_move twoR ⟨0, []⟩ "Nightmare" rzero 0
    (by simp [twoR]) (fun hB => ⟨le_refl 0, by norm_num [rzero]⟩)
  exact ⟨by simp [twoR], h.1, h.2.1 (by simp) (by simp) (by simp)⟩

end ChessAI
